import Mathlib

/-!
Verification of the offline-whisper Obsidian plugin against its design
specification.

The development shallowly embeds the relevant parts of the repository:

* the result sequencer of `main.js` (`pendingResults`, `nextInsertChunk`,
  `flushPendingResults`, `transcribeAudio`),
* `resampleAudio`,
* `writeWavFile` and the provisioning / subprocess logic of
  `desktop-transcriber.js`,
* the `loadModel` single-flight guard.

Machine floating point numbers are modelled by exact rationals, JavaScript
`Math.round` by `fun x => ⌊x + 1/2⌋` (its behaviour on all finite doubles),
and the JavaScript `Map` by an association list whose lookup semantics
mirror `Map.get` / `Map.has` / `Map.delete` / `Map.set`.
-/

/-- JavaScript `Math.round` on finite values: `⌊x + 1/2⌋` (halves round up). -/
def jsRound (x : ℚ) : ℤ := ⌊x + 1/2⌋

/-- JavaScript `Math.max(-1, Math.min(1, x))` as used on audio samples. -/
def clampSample (x : ℚ) : ℚ := max (-1) (min 1 x)

/-! ## The result sequencer (`main.js`, lines 799-996) -/

/-- JavaScript `text.startsWith(c)` for a one-character prefix `c`. -/
def strStartsWith (s : String) (c : Char) : Bool :=
  match s.data with
  | [] => false
  | a :: _ => a == c

/-- JavaScript `text.endsWith(c)` for a one-character suffix `c`. -/
def strEndsWith (s : String) (c : Char) : Bool :=
  match s.data.getLast? with
  | none => false
  | some a => a == c

/-- The content filter on line 952 of `main.js`:
`text && text.length > 0 && text !== 'you' && !(text.startsWith('[') && text.endsWith(']')) && !(text.startsWith('(') && text.endsWith(')'))`. -/
def keepText (text : String) : Bool :=
  !(text == "") && !(text == "you")
    && !(strStartsWith text '[' && strEndsWith text ']')
    && !(strStartsWith text '(' && strEndsWith text ')')

/-- The `pendingResults` JavaScript `Map` keyed by chunk sequence number,
represented as an association list with unique keys. -/
abbrev PendMap := List (ℕ × String)

/-- `Map.get(k)` (also deciding `Map.has(k)` via `isSome`). -/
def mget (m : PendMap) (k : ℕ) : Option String :=
  (m.find? (fun e => e.1 == k)).map (fun e => e.2)

/-- `Map.delete(k)`. -/
def mdel (m : PendMap) (k : ℕ) : PendMap :=
  m.filter (fun e => !(e.1 == k))

/-- `Map.set(k, v)`: replaces any previous binding of `k`. -/
def mset (m : PendMap) (k : ℕ) (v : String) : PendMap :=
  (k, v) :: mdel m k

/-- The sequencer-relevant plugin state: the pending buffer, the next
sequence number to insert, the editor cursor offset (`cursor.ch`), and the
record of all `replaceRange` calls made so far, as `(seq, insertedText)`. -/
structure SeqState where
  pendingResults : PendMap
  nextInsertChunk : ℕ
  cursor : ℕ
  inserted : List (ℕ × String)
deriving DecidableEq

/-- One iteration of the `while` body of `flushPendingResults`
(`main.js` lines 948-971): pop the entry for `nextInsertChunk`, insert
`text + ' '` at the cursor if the content filter keeps it, advance the
cursor by the inserted length, and increment `nextInsertChunk`. -/
def flushStep (st : SeqState) (text : String) : SeqState :=
  let st1 := { st with pendingResults := mdel st.pendingResults st.nextInsertChunk }
  let st2 :=
    if keepText text then
      let insertText := text ++ " "
      { st1 with
          inserted := st1.inserted ++ [(st.nextInsertChunk, insertText)],
          cursor := st1.cursor + insertText.length }
    else st1
  { st2 with nextInsertChunk := st.nextInsertChunk + 1 }

/-- The `while (this.pendingResults.has(this.nextInsertChunk))` loop with
explicit fuel.  Every iteration deletes one entry of the map, so
`pendingResults.length` iterations always suffice: when the fuel reaches 0
the map is empty and the loop guard is false anyway. -/
def flushAux : ℕ → SeqState → SeqState
  | 0, st => st
  | fuel + 1, st =>
    match mget st.pendingResults st.nextInsertChunk with
    | none => st
    | some text => flushAux fuel (flushStep st text)

/-- `flushPendingResults` (`main.js` lines 947-972). -/
def flushPendingResults (st : SeqState) : SeqState :=
  flushAux st.pendingResults.length st

/-- The successful tail of `transcribeAudio` (`main.js` lines 933-934):
`this.pendingResults.set(chunkNum, text); this.flushPendingResults();`. -/
def submitResult (st : SeqState) (seq : ℕ) (text : String) : SeqState :=
  flushPendingResults { st with pendingResults := mset st.pendingResults seq text }

/-- Sequencer state right after `startRecording` (`main.js` lines 787-790):
`nextInsertChunk = 1`, empty `pendingResults`; the cursor offset is measured
from the recording start. -/
def initialSeqState : SeqState := ⟨[], 1, 0, []⟩

/-- Process a list of terminal transcription results `(seq, text)` in the
order their `transcriber` promises resolve. -/
def processResults (subs : List (ℕ × String)) : SeqState :=
  subs.foldl (fun st e => submitResult st e.1 e.2) initialSeqState

/-- Terminal-outcome handling of `transcribeAudio` (`main.js` lines
901-944): on success (`some text`) the text is stored and the buffer
flushed; when the transcriber call throws (`none`), the `catch` block on
lines 935-937 only shows a notice — nothing is submitted to the sequencer. -/
def transcribeAudioStep (st : SeqState) (chunkNum : ℕ) (outcome : Option String) : SeqState :=
  match outcome with
  | some text => submitResult st chunkNum text
  | none => st

/-- Run a session whose chunks complete with the given outcomes, in the
given completion order (`none` = the transcriber call threw). -/
def runSession (evts : List (ℕ × Option String)) : SeqState :=
  evts.foldl (fun st e => transcribeAudioStep st e.1 e.2) initialSeqState

/-! ### Association-list map lemmas -/

theorem mget_nil (k : ℕ) : mget [] k = none := rfl

theorem mget_cons (a : ℕ × String) (m : PendMap) (k : ℕ) :
    mget (a :: m) k = if a.1 = k then some a.2 else mget m k := by
  by_cases h : a.1 = k <;> simp [mget, List.find?_cons, h]

theorem mget_mdel (m : PendMap) (k j : ℕ) :
    mget (mdel m k) j = if j = k then none else mget m j := by
  induction m with
  | nil => by_cases h : j = k <;> simp [mdel, mget, h]
  | cons a tl ih =>
    by_cases hak : a.1 = k
    · have hd : mdel (a :: tl) k = mdel tl k := by
        simp [mdel, List.filter_cons, hak]
      rw [hd, ih]
      by_cases hjk : j = k
      · simp [hjk]
      · have haj : ¬ a.1 = j := by
          intro hh
          exact hjk (by rw [← hh, hak])
        simp [hjk, mget_cons, haj]
    · have hd : mdel (a :: tl) k = a :: mdel tl k := by
        simp [mdel, List.filter_cons, hak]
      rw [hd, mget_cons, mget_cons, ih]
      by_cases haj : a.1 = j
      · have hjk : ¬ j = k := by rw [← haj]; exact hak
        simp [haj, hjk]
      · simp [haj]

theorem mget_mset (m : PendMap) (k : ℕ) (v : String) (j : ℕ) :
    mget (mset m k v) j = if j = k then some v else mget m j := by
  rw [mset, mget_cons, mget_mdel]
  by_cases h : k = j
  · simp [h]
  · have h' : ¬ j = k := fun hh => h hh.symm
    simp [h, h']

theorem length_mdel_lt (m : PendMap) (k : ℕ) (h : (mget m k).isSome) :
    (mdel m k).length < m.length := by
  induction m with
  | nil => simp [mget] at h
  | cons a tl ih =>
    by_cases hak : a.1 = k
    · have h1 : (mdel (a :: tl) k).length ≤ tl.length := by
        simpa [mdel, List.filter_cons, hak] using List.length_filter_le _ tl
      simp only [List.length_cons]
      omega
    · rw [mget_cons] at h
      simp only [hak, if_false] at h
      have h1 := ih h
      have h2 : mdel (a :: tl) k = a :: mdel tl k := by
        simp [mdel, List.filter_cons, hak]
      rw [h2]
      simp only [List.length_cons]
      omega

/-! ### Characterization of the flush loop -/

theorem flushStep_pendingResults (st : SeqState) (text : String) :
    (flushStep st text).pendingResults = mdel st.pendingResults st.nextInsertChunk := by
  by_cases h : keepText text <;> simp [flushStep, h]

theorem flushStep_nextInsertChunk (st : SeqState) (text : String) :
    (flushStep st text).nextInsertChunk = st.nextInsertChunk + 1 := by
  by_cases h : keepText text <;> simp [flushStep, h]

theorem flushStep_inserted (st : SeqState) (text : String) :
    (flushStep st text).inserted =
      st.inserted ++ (if keepText text then [(st.nextInsertChunk, text ++ " ")] else []) := by
  by_cases h : keepText text <;> simp [flushStep, h]

theorem filterMapCongr {α β : Type _} {f g : α → Option β} :
    ∀ {l : List α}, (∀ a ∈ l, f a = g a) → l.filterMap f = l.filterMap g := by
  intro l
  induction l with
  | nil => intro _; rfl
  | cons a tl ih =>
    intro h
    have ha := h a (List.mem_cons_self a tl)
    have htl := ih (fun x hx => h x (List.mem_cons_of_mem a hx))
    simp [List.filterMap_cons, ha, htl]

/-- What a popped entry contributes to the insertion record. -/
def popContribution (m : PendMap) (s : ℕ) : Option (ℕ × String) :=
  match mget m s with
  | some text => if keepText text then some (s, text ++ " ") else none
  | none => none

/-- The flush loop is a monotone scan: it pops exactly the run of
consecutive pending entries starting at `nextInsertChunk`, leaves
`nextInsertChunk` just past that run, and appends the surviving popped
texts (with trailing space) to the insertion record in sequence order. -/
theorem flushAux_spec (fuel : ℕ) :
    ∀ st : SeqState, st.pendingResults.length ≤ fuel →
    ∃ j : ℕ,
      (∀ i, i < j → (mget st.pendingResults (st.nextInsertChunk + i)).isSome = true) ∧
      mget st.pendingResults (st.nextInsertChunk + j) = none ∧
      (flushAux fuel st).nextInsertChunk = st.nextInsertChunk + j ∧
      (∀ k, mget (flushAux fuel st).pendingResults k =
        if st.nextInsertChunk ≤ k ∧ k < st.nextInsertChunk + j then none
        else mget st.pendingResults k) ∧
      (flushAux fuel st).inserted = st.inserted ++
        (List.range' st.nextInsertChunk j).filterMap (popContribution st.pendingResults) ∧
      (flushAux fuel st).cursor = st.cursor +
        (((List.range' st.nextInsertChunk j).filterMap
            (popContribution st.pendingResults)).map (fun e => e.2.length)).sum := by
  induction fuel with
  | zero =>
    intro st hlen
    have hm : st.pendingResults = [] := List.length_eq_zero.mp (Nat.le_zero.mp hlen)
    refine ⟨0, ?_, ?_, ?_, ?_, ?_, ?_⟩
    · intro i hi; omega
    · rw [hm]; rfl
    · simp [flushAux]
    · intro k
      rw [if_neg (by omega)]
      rfl
    · simp [flushAux]
    · simp [flushAux]
  | succ fuel ih =>
    intro st hlen
    cases hmg : mget st.pendingResults st.nextInsertChunk with
    | none =>
      have heq : flushAux (fuel + 1) st = st := by
        simp [flushAux, hmg]
      refine ⟨0, ?_, ?_, ?_, ?_, ?_, ?_⟩
      · intro i hi; omega
      · simpa using hmg
      · simp [heq]
      · intro k
        rw [if_neg (by omega), heq]
      · simp [heq]
      · simp [heq]
    | some text =>
      have heq : flushAux (fuel + 1) st = flushAux fuel (flushStep st text) := by
        simp [flushAux, hmg]
      have hlen1 : (flushStep st text).pendingResults.length ≤ fuel := by
        rw [flushStep_pendingResults]
        have := length_mdel_lt st.pendingResults st.nextInsertChunk (by rw [hmg]; rfl)
        omega
      obtain ⟨j1, h1, h2, h3, h4, h5, h6⟩ := ih (flushStep st text) hlen1
      have hspace : (" " : String).length = 1 := rfl
      have hcursor1 : (flushStep st text).cursor =
          st.cursor + (if keepText text then text.length + 1 else 0) := by
        by_cases h : keepText text <;> simp [flushStep, h, hspace]
      simp only [flushStep_pendingResults, flushStep_nextInsertChunk,
        flushStep_inserted, hcursor1] at h1 h2 h3 h4 h5 h6
      have hcontrib : ∀ s ∈ List.range' (st.nextInsertChunk + 1) j1,
          popContribution (mdel st.pendingResults st.nextInsertChunk) s =
            popContribution st.pendingResults s := by
        intro s hs
        have hs1 : st.nextInsertChunk + 1 ≤ s := (List.mem_range'_1.mp hs).1
        rw [popContribution, mget_mdel, if_neg (by omega)]
        rfl
      have hrange : List.range' st.nextInsertChunk (j1 + 1) =
          st.nextInsertChunk :: List.range' (st.nextInsertChunk + 1) j1 := rfl
      have hcontrib0 : popContribution st.pendingResults st.nextInsertChunk =
          if keepText text then some (st.nextInsertChunk, text ++ " ") else none := by
        rw [popContribution, hmg]
      refine ⟨j1 + 1, ?_, ?_, ?_, ?_, ?_, ?_⟩
      · intro i hi
        cases i with
        | zero => rw [Nat.add_zero, hmg]; rfl
        | succ i' =>
          have hi' : i' < j1 := by omega
          have hh := h1 i' hi'
          rw [mget_mdel, if_neg (by omega)] at hh
          have hidx : st.nextInsertChunk + (i' + 1) = st.nextInsertChunk + 1 + i' := by omega
          rw [hidx]
          exact hh
      · have hh := h2
        rw [mget_mdel, if_neg (by omega)] at hh
        have hidx : st.nextInsertChunk + (j1 + 1) = st.nextInsertChunk + 1 + j1 := by omega
        rw [hidx]
        exact hh
      · rw [heq, h3]; omega
      · intro k
        rw [heq, h4 k, mget_mdel]
        by_cases hA : st.nextInsertChunk + 1 ≤ k ∧ k < st.nextInsertChunk + 1 + j1
        · rw [if_pos hA, if_pos (by omega)]
        · rw [if_neg hA]
          by_cases hB : k = st.nextInsertChunk
          · rw [if_pos hB, if_pos (by omega)]
          · rw [if_neg hB, if_neg (by omega)]
      · rw [heq, h5, hrange, List.filterMap_cons, hcontrib0,
          filterMapCongr hcontrib]
        by_cases h : keepText text
        · simp [h, List.append_assoc]
        · simp [h]
      · rw [heq, h6, hrange, List.filterMap_cons, hcontrib0,
          filterMapCongr hcontrib]
        by_cases h : keepText text
        · simp [h]
          omega
        · simp [h]

/-- `flushAux_spec` instantiated at the fuel used by `flushPendingResults`. -/
theorem flushPendingResults_spec (st : SeqState) :
    ∃ j : ℕ,
      (∀ i, i < j → (mget st.pendingResults (st.nextInsertChunk + i)).isSome = true) ∧
      mget st.pendingResults (st.nextInsertChunk + j) = none ∧
      (flushPendingResults st).nextInsertChunk = st.nextInsertChunk + j ∧
      (∀ k, mget (flushPendingResults st).pendingResults k =
        if st.nextInsertChunk ≤ k ∧ k < st.nextInsertChunk + j then none
        else mget st.pendingResults k) ∧
      (flushPendingResults st).inserted = st.inserted ++
        (List.range' st.nextInsertChunk j).filterMap (popContribution st.pendingResults) ∧
      (flushPendingResults st).cursor = st.cursor +
        (((List.range' st.nextInsertChunk j).filterMap
            (popContribution st.pendingResults)).map (fun e => e.2.length)).sum :=
  flushAux_spec st.pendingResults.length st (le_refl _)

/-! ### The per-session invariant of the sequencer -/

theorem filterMapIf {α β : Type _} (p : α → Bool) (g : α → β) (f : α → Option β) :
    ∀ l : List α, (∀ a ∈ l, f a = if p a then some (g a) else none) →
      l.filterMap f = (l.filter p).map g := by
  intro l
  induction l with
  | nil => intro _; rfl
  | cons a tl ih =>
    intro h
    have ha := h a (List.mem_cons_self a tl)
    have htl := ih (fun x hx => h x (List.mem_cons_of_mem a hx))
    by_cases hp : p a
    · simp [List.filterMap_cons, List.filter_cons, ha, hp, htl]
    · simp [List.filterMap_cons, List.filter_cons, ha, hp, htl]

/-- Invariant of the sequencer state after the results of exactly the
chunks in `done` (all with sequence number ≥ 1, each submitted once, chunk
`s` having produced text `t s`) have been submitted. -/
def submittedInv (t : ℕ → String) (done : List ℕ) (st : SeqState) : Prop :=
  1 ≤ st.nextInsertChunk ∧
  (∀ m, 1 ≤ m → m < st.nextInsertChunk → m ∈ done) ∧
  st.nextInsertChunk ∉ done ∧
  (∀ k v, mget st.pendingResults k = some v ↔
    (k ∈ done ∧ st.nextInsertChunk ≤ k ∧ v = t k)) ∧
  st.inserted =
    ((List.range' 1 (st.nextInsertChunk - 1)).filter (fun s => keepText (t s))).map
      (fun s => (s, t s ++ " "))

theorem submittedInv_init (t : ℕ → String) : submittedInv t [] initialSeqState := by
  refine ⟨le_refl 1, ?_, ?_, ?_, ?_⟩
  · intro m h1 h2
    simp only [initialSeqState] at h2
    exact absurd h2 (Nat.not_lt.mpr h1)
  · simp
  · intro k v
    simp [initialSeqState, mget]
  · simp [initialSeqState]

theorem submittedInv_submit (t : ℕ → String) (done : List ℕ) (st : SeqState) (s : ℕ)
    (hinv : submittedInv t done st) (hs1 : 1 ≤ s) (hsd : s ∉ done) :
    submittedInv t (s :: done) (submitResult st s (t s)) := by
  obtain ⟨hn1, hbelow, hnot, hpend, hins⟩ := hinv
  have hs_ge : st.nextInsertChunk ≤ s := by
    by_contra hlt
    exact hsd (hbelow s hs1 (by omega))
  -- characterization of the buffer right after `pendingResults.set(s, t s)`
  have hpend0 : ∀ k v, mget (mset st.pendingResults s (t s)) k = some v ↔
      (k ∈ s :: done ∧ st.nextInsertChunk ≤ k ∧ v = t k) := by
    intro k v
    rw [mget_mset]
    by_cases hk : k = s
    · subst hk
      rw [if_pos rfl]
      constructor
      · intro hv
        exact ⟨List.mem_cons_self k done, hs_ge, (Option.some_inj.mp hv).symm⟩
      · intro h
        rw [h.2.2]
    · rw [if_neg hk, hpend k v]
      simp only [List.mem_cons]
      constructor
      · intro ⟨ha, hb, hc⟩; exact ⟨Or.inr ha, hb, hc⟩
      · intro ⟨ha, hb, hc⟩
        cases ha with
        | inl h => exact absurd h hk
        | inr h => exact ⟨h, hb, hc⟩
  have hsub : submitResult st s (t s) =
      flushPendingResults { st with pendingResults := mset st.pendingResults s (t s) } := rfl
  obtain ⟨j, hrun, hend, hnext, hpend2, hins2, hcur2⟩ :=
    flushPendingResults_spec { st with pendingResults := mset st.pendingResults s (t s) }
  simp only at hrun hend hnext hpend2 hins2 hcur2
  rw [hsub]
  set st2 := flushPendingResults { st with pendingResults := mset st.pendingResults s (t s) }
    with hst2
  refine ⟨?_, ?_, ?_, ?_, ?_⟩
  · omega
  · intro m hm1 hm2
    rw [hnext] at hm2
    by_cases hmn : m < st.nextInsertChunk
    · exact List.mem_cons_of_mem s (hbelow m hm1 hmn)
    · have hi : m = st.nextInsertChunk + (m - st.nextInsertChunk) := by omega
      have hlt : m - st.nextInsertChunk < j := by omega
      have hsome := hrun (m - st.nextInsertChunk) hlt
      rw [← hi] at hsome
      obtain ⟨v, hv⟩ := Option.isSome_iff_exists.mp hsome
      exact ((hpend0 m v).mp hv).1
  · intro hmem
    rw [hnext] at hmem
    have := (hpend0 (st.nextInsertChunk + j) (t (st.nextInsertChunk + j))).mpr
      ⟨hmem, by omega, rfl⟩
    rw [hend] at this
    exact Option.noConfusion this
  · intro k v
    rw [hpend2 k, hnext]
    by_cases hA : st.nextInsertChunk ≤ k ∧ k < st.nextInsertChunk + j
    · rw [if_pos hA]
      constructor
      · intro h; exact Option.noConfusion h
      · intro ⟨_, hb, _⟩; omega
    · rw [if_neg hA, hpend0 k v]
      constructor
      · intro ⟨ha, hb, hc⟩
        refine ⟨ha, by omega, hc⟩
      · intro ⟨ha, hb, hc⟩
        refine ⟨ha, by omega, hc⟩
  · rw [hins2, hnext]
    simp only [hins]
    have hcontrib : ∀ s1 ∈ List.range' st.nextInsertChunk j,
        popContribution (mset st.pendingResults s (t s)) s1 =
          if keepText (t s1) then some (s1, t s1 ++ " ") else none := by
      intro s1 hs1'
      obtain ⟨hlo, hhi⟩ := List.mem_range'_1.mp hs1'
      have hi : s1 = st.nextInsertChunk + (s1 - st.nextInsertChunk) := by omega
      have hlt : s1 - st.nextInsertChunk < j := by omega
      have hsome := hrun (s1 - st.nextInsertChunk) hlt
      rw [← hi] at hsome
      obtain ⟨v, hv⟩ := Option.isSome_iff_exists.mp hsome
      have hveq : v = t s1 := ((hpend0 s1 v).mp hv).2.2
      rw [popContribution, hv, hveq]
    rw [filterMapIf (fun s1 => keepText (t s1)) (fun s1 => (s1, t s1 ++ " ")) _ _ hcontrib]
    rw [← List.map_append, ← List.filter_append]
    have hr : List.range' 1 (st.nextInsertChunk - 1) ++ List.range' st.nextInsertChunk j =
        List.range' 1 (st.nextInsertChunk + j - 1) := by
      have := List.range'_append 1 (st.nextInsertChunk - 1) j 1
      simp only [one_mul] at this
      have harg : 1 + (st.nextInsertChunk - 1) = st.nextInsertChunk := by omega
      rw [harg] at this
      rw [this]
      congr 1
      omega
    rw [hr]

theorem processResults_inv (t : ℕ → String) :
    ∀ (order : List ℕ) (done : List ℕ) (st : SeqState),
      submittedInv t done st →
      (∀ s ∈ order, 1 ≤ s) →
      (∀ s ∈ order, s ∉ done) →
      order.Nodup →
      ∃ done' : List ℕ, (∀ x, x ∈ done' ↔ (x ∈ done ∨ x ∈ order)) ∧
        submittedInv t done'
          (order.foldl (fun st1 s => submitResult st1 s (t s)) st) := by
  intro order
  induction order with
  | nil =>
    intro done st hinv _ _ _
    exact ⟨done, fun x => by simp, hinv⟩
  | cons s rest ih =>
    intro done st hinv hpos hnd hnodup
    have h1 : 1 ≤ s := hpos s (List.mem_cons_self s rest)
    have h2 : s ∉ done := hnd s (List.mem_cons_self s rest)
    have hstep := submittedInv_submit t done st s hinv h1 h2
    have hrest_pos : ∀ x ∈ rest, 1 ≤ x := fun x hx => hpos x (List.mem_cons_of_mem s hx)
    have hrest_nd : ∀ x ∈ rest, x ∉ s :: done := by
      intro x hx
      simp only [List.mem_cons, not_or]
      exact ⟨fun hxs => (List.nodup_cons.mp hnodup).1 (hxs ▸ hx),
        hnd x (List.mem_cons_of_mem s hx)⟩
    obtain ⟨done', hd, hfin⟩ := ih (s :: done) (submitResult st s (t s)) hstep
      hrest_pos hrest_nd (List.nodup_cons.mp hnodup).2
    refine ⟨done', ?_, ?_⟩
    · intro x
      rw [hd x]
      simp only [List.mem_cons]
      tauto
    · simpa using hfin

/-- C1. For a recording session whose chunks `1..N` produce texts `t 1 .. t N`,
and for every order in which the results are submitted to the sequencer
(`pendingResults.set` followed by `flushPendingResults`), the sequence of
texts passed to the editor sink's insert operation is exactly the texts
surviving the content filter, with their trailing space, in strictly
increasing sequence-number order. -/
theorem c1_insertion_order (N : ℕ) (t : ℕ → String) (order : List ℕ)
    (hperm : order.Perm (List.range' 1 N)) :
    (processResults (order.map (fun s => (s, t s)))).inserted =
      ((List.range' 1 N).filter (fun s => keepText (t s))).map (fun s => (s, t s ++ " ")) := by
  have hmem : ∀ x, x ∈ order ↔ (1 ≤ x ∧ x < 1 + N) := by
    intro x
    rw [hperm.mem_iff, List.mem_range'_1]
  have hpos : ∀ s ∈ order, 1 ≤ s := fun s hs => ((hmem s).mp hs).1
  have hnodup : order.Nodup := hperm.nodup_iff.mpr (List.nodup_range' 1 N)
  obtain ⟨done', hd, hfin⟩ := processResults_inv t order [] initialSeqState
    (submittedInv_init t) hpos (by simp) hnodup
  have hfold : processResults (order.map (fun s => (s, t s))) =
      order.foldl (fun st1 s => submitResult st1 s (t s)) initialSeqState := by
    rw [processResults, List.foldl_map]
  obtain ⟨hn1, hbelow, hnot, hpend, hins⟩ := hfin
  have hd' : ∀ x, x ∈ done' ↔ (1 ≤ x ∧ x < 1 + N) := by
    intro x
    rw [hd x]
    simp only [List.not_mem_nil, false_or]
    exact hmem x
  have hnext : (order.foldl (fun st1 s => submitResult st1 s (t s))
      initialSeqState).nextInsertChunk = N + 1 := by
    set n := (order.foldl (fun st1 s => submitResult st1 s (t s))
      initialSeqState).nextInsertChunk with hn
    by_contra hne
    by_cases hle : n ≤ N
    · exact hnot ((hd' n).mpr ⟨hn1, by omega⟩)
    · have hNmem : N + 1 ∈ done' := hbelow (N + 1) (by omega) (by omega)
      have := ((hd' (N + 1)).mp hNmem).2
      omega
  rw [hfold, hins, hnext]
  simp

/-! ### Sequencer invariant theorems -/

theorem foldlCongrMem {α β : Type _} (f g : β → α → β) :
    ∀ (l : List α) (b : β), (∀ a ∈ l, ∀ s, f s a = g s a) → l.foldl f b = l.foldl g b := by
  intro l
  induction l with
  | nil => intro b _; rfl
  | cons a tl ih =>
    intro b h
    rw [List.foldl_cons, List.foldl_cons, h a (List.mem_cons_self a tl) b]
    exact ih _ (fun x hx s => h x (List.mem_cons_of_mem a hx) s)

theorem mget_of_mem (l : List (ℕ × String)) (h : (l.map Prod.fst).Nodup) :
    ∀ e ∈ l, mget l e.1 = some e.2 := by
  induction l with
  | nil => intro e he; cases he
  | cons a tl ih =>
    have h' : a.1 ∉ tl.map Prod.fst ∧ (tl.map Prod.fst).Nodup := by
      rw [List.map_cons] at h
      exact List.nodup_cons.mp h
    intro e he
    rcases List.mem_cons.mp he with he1 | he2
    · subst he1
      rw [mget_cons, if_pos rfl]
    · have hne : ¬ a.1 = e.1 := by
        intro hh
        exact h'.1 (hh ▸ List.mem_map_of_mem Prod.fst he2)
      rw [mget_cons, if_neg hne]
      exact ih h'.2 e he2

theorem submitResult_next_le (st : SeqState) (s : ℕ) (v : String) :
    st.nextInsertChunk ≤ (submitResult st s v).nextInsertChunk := by
  obtain ⟨j, _, _, hnext, _, _, _⟩ :=
    flushPendingResults_spec { st with pendingResults := mset st.pendingResults s v }
  simp only at hnext
  rw [submitResult, hnext]
  omega

theorem foldl_submit_next_le :
    ∀ (l : List (ℕ × String)) (st : SeqState),
      st.nextInsertChunk ≤
        (l.foldl (fun st1 e => submitResult st1 e.1 e.2) st).nextInsertChunk := by
  intro l
  induction l with
  | nil => intro st; exact le_refl _
  | cons a tl ih =>
    intro st
    rw [List.foldl_cons]
    exact le_trans (submitResult_next_le st a.1 a.2) (ih (submitResult st a.1 a.2))

/-- C9. Within one recording session (distinct chunk numbers starting at 1):
`nextInsertChunk` never decreases as results are processed; the pending
buffer never holds an entry keyed below `nextInsertChunk`; and every flush
is a monotone scan popping consecutive entries from `nextInsertChunk`
upward while entries exist. -/
theorem c9_sequencer_invariants (subs : List (ℕ × String))
    (hnd : (subs.map Prod.fst).Nodup) (hpos : ∀ e ∈ subs, 1 ≤ e.1) :
    (∀ pre mid : List (ℕ × String),
      (processResults pre).nextInsertChunk ≤
        (processResults (pre ++ mid)).nextInsertChunk) ∧
    (∀ pre suf : List (ℕ × String), subs = pre ++ suf →
      ∀ k v, mget (processResults pre).pendingResults k = some v →
        (processResults pre).nextInsertChunk ≤ k) ∧
    (∀ st : SeqState, ∃ j : ℕ,
      (∀ i, i < j → (mget st.pendingResults (st.nextInsertChunk + i)).isSome = true) ∧
      mget st.pendingResults (st.nextInsertChunk + j) = none ∧
      (flushPendingResults st).nextInsertChunk = st.nextInsertChunk + j ∧
      (∀ k, mget (flushPendingResults st).pendingResults k =
        if st.nextInsertChunk ≤ k ∧ k < st.nextInsertChunk + j then none
        else mget st.pendingResults k)) := by
  refine ⟨?_, ?_, ?_⟩
  · intro pre mid
    rw [processResults, processResults, List.foldl_append]
    exact foldl_submit_next_le mid _
  · intro pre suf hsplit k v hk
    have hmapsplit : subs.map Prod.fst = pre.map Prod.fst ++ suf.map Prod.fst := by
      rw [hsplit, List.map_append]
    have hndpre : (pre.map Prod.fst).Nodup := by
      rw [hmapsplit] at hnd
      exact (List.nodup_append.mp hnd).1
    have hpospre : ∀ e ∈ pre, 1 ≤ e.1 := by
      intro e he
      exact hpos e (by rw [hsplit]; exact List.mem_append_left suf he)
    have hfold : processResults pre =
        (pre.map Prod.fst).foldl
          (fun st1 s => submitResult st1 s ((mget pre s).getD "")) initialSeqState := by
      rw [processResults, List.foldl_map]
      apply foldlCongrMem
      intro e he st
      rw [mget_of_mem pre hndpre e he]
      rfl
    obtain ⟨done', _, hinv⟩ := processResults_inv (fun s => (mget pre s).getD "")
      (pre.map Prod.fst) [] initialSeqState
      (submittedInv_init _)
      (fun s hs => by
        obtain ⟨e, he, hes⟩ := List.mem_map.mp hs
        exact hes ▸ hpospre e he)
      (by simp) hndpre
    obtain ⟨_, _, _, hpend, _⟩ := hinv
    rw [hfold] at hk ⊢
    exact ((hpend k v).mp hk).2.1
  · intro st
    obtain ⟨j, h1, h2, h3, h4, _, _⟩ := flushPendingResults_spec st
    exact ⟨j, h1, h2, h3, h4⟩

/-- C2 evidence. In a session where chunk 2's transcription throws while
chunks 1 and 3 succeed, the code submits nothing for chunk 2: only chunk
1's text is ever inserted, `nextInsertChunk` stays at 2, and chunk 3's
completed text is withheld in the pending buffer forever. -/
theorem c2_failed_chunk_blocks_sequencer :
    (runSession [(1, some "one"), (2, none), (3, some "three")]).inserted = [(1, "one ")] ∧
    (runSession [(1, some "one"), (2, none), (3, some "three")]).nextInsertChunk = 2 ∧
    mget (runSession [(1, some "one"), (2, none), (3, some "three")]).pendingResults 3 =
      some "three" := by
  refine ⟨by decide, by decide, by decide⟩

/-! ### The content filter -/

/-- The spec's drop condition, stated as in §4.5: drop if empty, drop if it
equals the non-speech filler token `"you"`, drop if it is entirely wrapped
in `[...]` or `(...)`. -/
def dropConditionSpec (t : String) : Prop :=
  t = "" ∨ t = "you" ∨
    (strStartsWith t '[' = true ∧ strEndsWith t ']' = true) ∨
    (strStartsWith t '(' = true ∧ strEndsWith t ')' = true)

/-- C5. A popped text is dropped exactly when the spec's drop condition
holds; a surviving text is inserted as `text + ' '` and the cursor advances
by the inserted length; the four sample fillers never reach the sink while
`"hello world"` is inserted with a single trailing space. -/
theorem c5_content_filter (t : String) :
    (keepText t = false ↔ dropConditionSpec t) ∧
    ((submitResult initialSeqState 1 t).inserted =
      if keepText t then [(1, t ++ " ")] else []) ∧
    ((submitResult initialSeqState 1 t).cursor =
      if keepText t then t.length + 1 else 0) ∧
    keepText "" = false ∧ keepText "you" = false ∧
    keepText "[BLANK_AUDIO]" = false ∧ keepText "(silence)" = false ∧
    keepText "hello world" = true ∧
    (submitResult initialSeqState 1 "hello world").inserted = [(1, "hello world ")] := by
  have hspace : (" " : String).length = 1 := rfl
  refine ⟨?_, ?_, ?_, by decide, by decide, by decide, by decide, by decide, by decide⟩
  · rw [keepText, dropConditionSpec]
    simp only [Bool.and_eq_false_iff, Bool.not_eq_false', Bool.not_eq_true',
      Bool.and_eq_true, beq_iff_eq, Bool.and_eq_false_iff]
    tauto
  · by_cases h : keepText t <;>
      simp [submitResult, flushPendingResults, flushAux, flushStep, mset, mdel, mget,
        initialSeqState, h]
  · by_cases h : keepText t <;>
      simp [submitResult, flushPendingResults, flushAux, flushStep, mset, mdel, mget,
        initialSeqState, h, String.length_append, hspace]

/-! ## `resampleAudio` (`main.js` lines 877-885) -/

/-- `resampleAudio` of the current `main.js` (lines 877-885):
`ratio = from/to`, `newLength = Math.round(length/ratio)`, and
`result[i] = audioData[Math.floor(i * ratio)]` — the nearest preceding
source sample, with no interpolation.  The (never used, see
`c10_resample_safety`) out-of-range access is modelled by `getD _ _ 0`. -/
def resampleAudio (audioData : List ℚ) (fromSampleRate toSampleRate : ℚ) : List ℚ :=
  let ratio := fromSampleRate / toSampleRate
  let newLength := (jsRound ((audioData.length : ℚ) / ratio)).toNat
  (List.range newLength).map (fun (i : ℕ) => audioData.getD (⌊(i : ℚ) * ratio⌋).toNat 0)

/-- Modelled from the spec (§4.4): for output index `i`, source position
`p = i * (srcRate/16000)`, value = linear blend between the samples at
`floor(p)` and `ceil(p)`.  Stated for comparison with `resampleAudio`. -/
def resampleLinearSpec (audioData : List ℚ) (fromSampleRate toSampleRate : ℚ) : List ℚ :=
  let ratio := fromSampleRate / toSampleRate
  let newLength := (jsRound ((audioData.length : ℚ) / ratio)).toNat
  (List.range newLength).map (fun (i : ℕ) =>
    let p := (i : ℚ) * ratio
    let frac := p - ⌊p⌋
    audioData.getD (⌊p⌋).toNat 0 * (1 - frac) + audioData.getD (⌈p⌉).toNat 0 * frac)

theorem floorRatEq (q : ℚ) (n : ℤ) (h1 : (n : ℚ) ≤ q) (h2 : q < n + 1) : ⌊q⌋ = n :=
  Int.floor_eq_iff.mpr ⟨h1, h2⟩

theorem ceilRatEq (q : ℚ) (n : ℤ) (h1 : (n : ℚ) - 1 < q) (h2 : q ≤ n) : ⌈q⌉ = n :=
  Int.ceil_eq_iff.mpr ⟨h1, h2⟩

/-- C4 counterexample. On the three-sample buffer `[0, 0, 1]` resampled
from 24000 Hz to 16000 Hz, output index 1 has source position `p = 3/2`:
the code emits the sample at `floor(p)` (namely `0`) whereas linear
interpolation between the samples at `floor(p)` and `ceil(p)` gives `1/2`.
So `resampleAudio` does not compute the linear blend the claim states. -/
theorem c4_resample_not_linear :
    resampleAudio [0, 0, 1] 24000 16000 = [0, 0] ∧
    resampleLinearSpec [0, 0, 1] 24000 16000 = [0, 1/2] ∧
    resampleAudio [0, 0, 1] 24000 16000 ≠ resampleLinearSpec [0, 0, 1] 24000 16000 := by
  have hr2 : (24000 : ℚ) / 16000 = 3/2 := by norm_num
  have h0 : ⌊(0 : ℚ)⌋ = 0 := Int.floor_zero
  have h32 : ⌊(3/2 : ℚ)⌋ = 1 := floorRatEq _ _ (by norm_num) (by norm_num)
  have h52 : ⌊(5/2 : ℚ)⌋ = 2 := floorRatEq _ _ (by norm_num) (by norm_num)
  have hc0 : ⌈(0 : ℚ)⌉ = 0 := Int.ceil_zero
  have hc32 : ⌈(3/2 : ℚ)⌉ = 2 := ceilRatEq _ _ (by norm_num) (by norm_num)
  have hlen : (([0, 0, 1] : List ℚ).length : ℚ) = 3 := by norm_num
  have hkey : (jsRound ((([0, 0, 1] : List ℚ).length : ℚ) / (3/2))).toNat = 2 := by
    rw [jsRound, hlen, show (3 : ℚ) / (3/2) + 1/2 = 5/2 by norm_num, h52]
    rfl
  have hrange : List.range 2 = [0, 1] := rfl
  have hA : resampleAudio [0, 0, 1] 24000 16000 = [0, 0] := by
    simp only [resampleAudio, hr2, hkey, hrange, List.map_cons, List.map_nil]
    rw [show ((0 : ℕ) : ℚ) * (3/2) = 0 by norm_num,
      show ((1 : ℕ) : ℚ) * (3/2) = 3/2 by norm_num, h0, h32]
    rfl
  have hB : resampleLinearSpec [0, 0, 1] 24000 16000 = [0, 1/2] := by
    simp only [resampleLinearSpec, hr2, hkey, hrange, List.map_cons, List.map_nil]
    rw [show ((0 : ℕ) : ℚ) * (3/2) = 0 by norm_num,
      show ((1 : ℕ) : ℚ) * (3/2) = 3/2 by norm_num, h0, h32, hc0, hc32]
    norm_num
    rfl
  refine ⟨hA, hB, ?_⟩
  rw [hA, hB]
  intro hcontra
  have := List.cons.injEq 0 [(0 : ℚ)] 0 [1/2] ▸ hcontra
  simp only [List.cons.injEq] at hcontra
  have h12 := hcontra.2.1
  norm_num at h12

/-- C4 (amended). For positive rates, resampling produces
`round(n * toRate/fromRate)` output samples, and the value at output index
`i` is the source sample at index `floor(i * (fromRate/toRate))` — the
nearest preceding source sample, not a linear blend. -/
theorem c4_resample_nearest (audioData : List ℚ) (fromSampleRate toSampleRate : ℚ)
    (h1 : 0 < fromSampleRate) (h2 : 0 < toSampleRate) :
    (resampleAudio audioData fromSampleRate toSampleRate).length =
      (jsRound ((audioData.length : ℚ) * toSampleRate / fromSampleRate)).toNat ∧
    (∀ i : ℕ, i < (resampleAudio audioData fromSampleRate toSampleRate).length →
      (resampleAudio audioData fromSampleRate toSampleRate).getD i 0 =
        audioData.getD (⌊(i : ℚ) * (fromSampleRate / toSampleRate)⌋).toNat 0) := by
  constructor
  · simp only [resampleAudio, List.length_map, List.length_range]
    rw [div_div_eq_mul_div]
  · intro i hi
    simp only [resampleAudio, List.length_map, List.length_range] at hi
    simp only [resampleAudio]
    rw [List.getD_eq_getElem _ _ (by simpa using hi)]
    simp only [List.getElem_map, List.getElem_range]

/-- C10. `resampleAudio` never reads out of bounds: with positive rates,
every accessed source index `floor(i * ratio)` for an output index `i`
below `Math.round(length/ratio)` is nonnegative and below the input
length; the output has exactly `round(length * toRate/fromRate)` elements,
and an empty input yields an empty output. -/
theorem c10_resample_safety (audioData : List ℚ) (fromSampleRate toSampleRate : ℚ)
    (h1 : 0 < fromSampleRate) (h2 : 0 < toSampleRate) :
    (∀ i : ℕ,
      i < (jsRound ((audioData.length : ℚ) / (fromSampleRate / toSampleRate))).toNat →
      0 ≤ ⌊(i : ℚ) * (fromSampleRate / toSampleRate)⌋ ∧
      (⌊(i : ℚ) * (fromSampleRate / toSampleRate)⌋).toNat < audioData.length) ∧
    (resampleAudio audioData fromSampleRate toSampleRate).length =
      (jsRound ((audioData.length : ℚ) * toSampleRate / fromSampleRate)).toNat ∧
    (audioData = [] → resampleAudio audioData fromSampleRate toSampleRate = []) := by
  have hr : 0 < fromSampleRate / toSampleRate := div_pos h1 h2
  set r := fromSampleRate / toSampleRate with hrdef
  refine ⟨?_, ?_, ?_⟩
  · intro i hi
    set L := audioData.length with hL
    have hfloor_nonneg : 0 ≤ ⌊(i : ℚ) * r⌋ :=
      Int.floor_nonneg.mpr (mul_nonneg (Nat.cast_nonneg i) hr.le)
    have hlt : ((i : ℤ)) < jsRound ((L : ℚ) / r) := Int.lt_toNat.mp hi
    have hiz : ((i : ℚ)) + 1 ≤ (L : ℚ) / r + 1/2 := by
      have hfl := Int.le_floor.mpr (Int.add_one_le_iff.mpr hlt)
      have := Int.le_floor.mp (Int.add_one_le_iff.mpr hlt)
      push_cast at this
      linarith
    have hmul : (i : ℚ) * r < (L : ℚ) := by
      have hstep : (i : ℚ) ≤ (L : ℚ) / r - 1/2 := by linarith
      have hmm := mul_le_mul_of_nonneg_right hstep hr.le
      rw [sub_mul, div_mul_cancel₀ _ (ne_of_gt hr)] at hmm
      nlinarith
    have hfloor_lt : ⌊(i : ℚ) * r⌋ < (L : ℤ) := Int.floor_lt.mpr (by push_cast; exact hmul)
    have hLpos : L ≠ 0 := by
      intro h0
      rw [h0] at hmul
      push_cast at hmul
      nlinarith [mul_nonneg (Nat.cast_nonneg (α := ℚ) i) hr.le]
    exact ⟨hfloor_nonneg, (Int.toNat_lt' hLpos).mpr hfloor_lt⟩
  · simp only [resampleAudio, List.length_map, List.length_range]
    rw [div_div_eq_mul_div]
  · intro h0
    subst h0
    simp only [resampleAudio, List.length_nil, Nat.cast_zero, zero_div]
    rw [show (jsRound 0) = 0 from by
      rw [jsRound, zero_add]
      exact floorRatEq _ 0 (by norm_num) (by norm_num)]
    rfl

/-! ## `writeWavFile` (`desktop-transcriber.js` lines 216-251) -/

/-- Little-endian bytes of `Buffer.writeUInt16LE`. -/
def u16le (v : ℕ) : List ℕ := [v % 256, v / 256 % 256]

/-- Little-endian bytes of `Buffer.writeUInt32LE`. -/
def u32le (v : ℕ) : List ℕ :=
  [v % 256, v / 256 % 256, v / 65536 % 256, v / 16777216 % 256]

/-- Little-endian bytes of `Buffer.writeInt16LE` (two's complement). -/
def i16le (v : ℤ) : List ℕ := u16le (v % 65536).toNat

/-- One sample of `writeWavFile`: clamp to `[-1, 1]`, scale by 32767,
`Math.round` to the nearest integer. -/
def sampleToInt16 (x : ℚ) : ℤ := jsRound (clampSample x * 32767)

/-- The 44-byte RIFF/WAVE header written by `writeWavFile` for
`numSamples` mono 16-bit samples: `'RIFF'`, file size, `'WAVE'`, `'fmt '`,
fmt chunk size 16, PCM tag 1, 1 channel, sample rate, byte rate, block
align, bits per sample, `'data'`, data size. -/
def wavHeader (numSamples sampleRate : ℕ) : List ℕ :=
  let numChannels := 1
  let bitsPerSample := 16
  let byteRate := sampleRate * numChannels * bitsPerSample / 8
  let blockAlign := numChannels * bitsPerSample / 8
  let dataSize := numSamples * 2
  let fileSize := 44 + dataSize - 8
  [82, 73, 70, 70] ++ u32le fileSize ++ [87, 65, 86, 69] ++
  [102, 109, 116, 32] ++ u32le 16 ++ u16le 1 ++ u16le numChannels ++
  u32le sampleRate ++ u32le byteRate ++ u16le blockAlign ++ u16le bitsPerSample ++
  [100, 97, 116, 97] ++ u32le dataSize

/-- `writeWavFile`: the 44-byte header followed by each sample clamped,
scaled, rounded and written as little-endian signed 16-bit. -/
def writeWavFile (audioData : List ℚ) (sampleRate : ℕ) : List ℕ :=
  wavHeader audioData.length sampleRate ++
    audioData.flatMap (fun x => i16le (sampleToInt16 x))

/-- Read back an unsigned 16-bit little-endian value. -/
def readU16 (bs : List ℕ) (off : ℕ) : ℕ := bs.getD off 0 + 256 * bs.getD (off + 1) 0

/-- Read back an unsigned 32-bit little-endian value. -/
def readU32 (bs : List ℕ) (off : ℕ) : ℕ :=
  bs.getD off 0 + 256 * bs.getD (off + 1) 0 + 65536 * bs.getD (off + 2) 0 +
    16777216 * bs.getD (off + 3) 0

/-- Read back a signed 16-bit little-endian value (two's complement). -/
def readI16 (bs : List ℕ) (off : ℕ) : ℤ :=
  if readU16 bs off < 32768 then (readU16 bs off : ℤ) else (readU16 bs off : ℤ) - 65536

theorem wavHeader_length (n r : ℕ) : (wavHeader n r).length = 44 := rfl

theorem length_flatMap_i16 (g : ℚ → ℤ) (l : List ℚ) :
    (l.flatMap (fun x => i16le (g x))).length = 2 * l.length := by
  induction l with
  | nil => rfl
  | cons a tl ih =>
    rw [List.flatMap_cons, List.length_append, ih]
    simp only [i16le, u16le, List.length_cons, List.length_nil]
    omega

theorem sampleToInt16_bounds (x : ℚ) :
    -32767 ≤ sampleToInt16 x ∧ sampleToInt16 x ≤ 32767 := by
  have hc1 : -1 ≤ clampSample x := le_max_left _ _
  have hc2 : clampSample x ≤ 1 := max_le (by norm_num) (min_le_left _ _)
  constructor
  · rw [sampleToInt16, jsRound]
    refine Int.le_floor.mpr ?_
    push_cast
    nlinarith
  · rw [sampleToInt16, jsRound]
    have hlt : clampSample x * 32767 + 1/2 < ((32768 : ℤ) : ℚ) := by
      push_cast
      nlinarith
    have h2 := Int.floor_lt.mpr hlt
    omega

theorem bind_pair_getD (g : ℚ → ℤ) :
    ∀ (l : List ℚ) (i : ℕ), i < l.length →
      (l.flatMap (fun x => i16le (g x))).getD (2 * i) 0 =
        ((g (l.getD i 0)) % 65536).toNat % 256 ∧
      (l.flatMap (fun x => i16le (g x))).getD (2 * i + 1) 0 =
        ((g (l.getD i 0)) % 65536).toNat / 256 % 256 := by
  intro l
  induction l with
  | nil => intro i hi; cases hi
  | cons a tl ih =>
    intro i hi
    cases i with
    | zero =>
      rw [List.flatMap_cons]
      constructor
      · rw [List.getD_append _ _ _ _ (by simp [i16le, u16le])]
        rfl
      · rw [List.getD_append _ _ _ _ (by simp [i16le, u16le])]
        rfl
    | succ i' =>
      have hlen2 : (i16le (g a)).length = 2 := rfl
      have hi' : i' < tl.length := by
        simp only [List.length_cons] at hi
        omega
      obtain ⟨ih1, ih2⟩ := ih i' hi'
      rw [List.flatMap_cons]
      constructor
      · rw [List.getD_append_right _ _ _ _ (by rw [hlen2]; omega), hlen2,
          show 2 * (i' + 1) - 2 = 2 * i' from by omega, ih1]
        rfl
      · rw [List.getD_append_right _ _ _ _ (by rw [hlen2]; omega), hlen2,
          show 2 * (i' + 1) + 1 - 2 = 2 * i' + 1 from by omega, ih2]
        rfl

/-- Byte-level normal form of the header at rate 16000:
`byteRate = 16000 * 1 * 16 / 8 = 32000 = [0, 125, 0, 0]`,
`sampleRate = 16000 = [128, 62, 0, 0]`, `blockAlign = 2`. -/
theorem wavHeader_nf (n : ℕ) : wavHeader n 16000 =
    82 :: 73 :: 70 :: 70 ::
    ((44 + n * 2 - 8) % 256) :: ((44 + n * 2 - 8) / 256 % 256) ::
    ((44 + n * 2 - 8) / 65536 % 256) :: ((44 + n * 2 - 8) / 16777216 % 256) ::
    87 :: 65 :: 86 :: 69 :: 102 :: 109 :: 116 :: 32 ::
    16 :: 0 :: 0 :: 0 :: 1 :: 0 :: 1 :: 0 ::
    128 :: 62 :: 0 :: 0 :: 0 :: 125 :: 0 :: 0 :: 2 :: 0 :: 16 :: 0 ::
    100 :: 97 :: 116 :: 97 ::
    ((n * 2) % 256) :: ((n * 2) / 256 % 256) ::
    ((n * 2) / 65536 % 256) :: ((n * 2) / 16777216 % 256) :: [] := by
  rw [wavHeader]
  norm_num [u32le, u16le]

theorem writeWav_getD_header (audioData : List ℚ) (o : ℕ) (ho : o < 44) :
    (writeWavFile audioData 16000).getD o 0 =
      (wavHeader audioData.length 16000).getD o 0 := by
  rw [writeWavFile, List.getD_append _ _ _ _ (by rw [wavHeader_length]; omega)]

theorem writeWav_readU32 (audioData : List ℚ) (o : ℕ) (ho : o + 3 < 44) :
    readU32 (writeWavFile audioData 16000) o =
      readU32 (wavHeader audioData.length 16000) o := by
  rw [readU32, readU32, writeWav_getD_header _ _ (by omega),
    writeWav_getD_header _ _ (show o + 1 < 44 by omega),
    writeWav_getD_header _ _ (show o + 2 < 44 by omega),
    writeWav_getD_header _ _ (show o + 3 < 44 by omega)]

theorem writeWav_readU16 (audioData : List ℚ) (o : ℕ) (ho : o + 1 < 44) :
    readU16 (writeWavFile audioData 16000) o =
      readU16 (wavHeader audioData.length 16000) o := by
  rw [readU16, readU16, writeWav_getD_header _ _ (by omega),
    writeWav_getD_header _ _ (show o + 1 < 44 by omega)]

theorem wavHeader_field4 (n : ℕ) : readU32 (wavHeader n 16000) 4 =
    (44 + n * 2 - 8) % 256 + 256 * ((44 + n * 2 - 8) / 256 % 256) +
    65536 * ((44 + n * 2 - 8) / 65536 % 256) +
    16777216 * ((44 + n * 2 - 8) / 16777216 % 256) := by
  rw [wavHeader_nf]
  rfl

theorem wavHeader_field16 (n : ℕ) : readU32 (wavHeader n 16000) 16 = 16 := by
  have h : readU32 (wavHeader n 16000) 16 = 16 + 256 * 0 + 65536 * 0 + 16777216 * 0 := by
    rw [wavHeader_nf]
    rfl
  rw [h]

theorem wavHeader_field20 (n : ℕ) : readU16 (wavHeader n 16000) 20 = 1 := by
  have h : readU16 (wavHeader n 16000) 20 = 1 + 256 * 0 := by
    rw [wavHeader_nf]
    rfl
  rw [h]

theorem wavHeader_field22 (n : ℕ) : readU16 (wavHeader n 16000) 22 = 1 := by
  have h : readU16 (wavHeader n 16000) 22 = 1 + 256 * 0 := by
    rw [wavHeader_nf]
    rfl
  rw [h]

theorem wavHeader_field24 (n : ℕ) : readU32 (wavHeader n 16000) 24 = 16000 := by
  have h : readU32 (wavHeader n 16000) 24 = 128 + 256 * 62 + 65536 * 0 + 16777216 * 0 := by
    rw [wavHeader_nf]
    rfl
  rw [h]

theorem wavHeader_field28 (n : ℕ) : readU32 (wavHeader n 16000) 28 = 32000 := by
  have h : readU32 (wavHeader n 16000) 28 = 0 + 256 * 125 + 65536 * 0 + 16777216 * 0 := by
    rw [wavHeader_nf]
    rfl
  rw [h]

theorem wavHeader_field32 (n : ℕ) : readU16 (wavHeader n 16000) 32 = 2 := by
  have h : readU16 (wavHeader n 16000) 32 = 2 + 256 * 0 := by
    rw [wavHeader_nf]
    rfl
  rw [h]

theorem wavHeader_field34 (n : ℕ) : readU16 (wavHeader n 16000) 34 = 16 := by
  have h : readU16 (wavHeader n 16000) 34 = 16 + 256 * 0 := by
    rw [wavHeader_nf]
    rfl
  rw [h]

theorem wavHeader_field40 (n : ℕ) : readU32 (wavHeader n 16000) 40 =
    (n * 2) % 256 + 256 * ((n * 2) / 256 % 256) +
    65536 * ((n * 2) / 65536 % 256) + 16777216 * ((n * 2) / 16777216 % 256) := by
  rw [wavHeader_nf]
  rfl

theorem writeWav_sample (audioData : List ℚ) (i : ℕ) (hi : i < audioData.length) :
    readI16 (writeWavFile audioData 16000) (44 + 2 * i) =
      sampleToInt16 (audioData.getD i 0) := by
  have hdata : ∀ k : ℕ, (writeWavFile audioData 16000).getD (44 + k) 0 =
      (audioData.flatMap (fun x => i16le (sampleToInt16 x))).getD k 0 := by
    intro k
    rw [writeWavFile, List.getD_append_right _ _ _ _ (by rw [wavHeader_length]; omega),
      wavHeader_length, show 44 + k - 44 = k from by omega]
  obtain ⟨hb1, hb2⟩ := bind_pair_getD sampleToInt16 audioData i hi
  obtain ⟨hlo, hhi⟩ := sampleToInt16_bounds (audioData.getD i 0)
  rw [readI16, readU16, show 44 + 2 * i + 1 = 44 + (2 * i + 1) from by omega,
    hdata (2 * i), hdata (2 * i + 1), hb1, hb2]
  set v := sampleToInt16 (audioData.getD i 0) with hv
  by_cases hcase :
      (v % 65536).toNat % 256 + 256 * ((v % 65536).toNat / 256 % 256) < 32768
  · rw [if_pos hcase]
    omega
  · rw [if_neg hcase]
    omega

/-- C6. For `N` float samples at declared rate 16000, `writeWavFile`
produces `44 + 2N` bytes: RIFF size field `44 + 2N - 8`, fmt chunk size
16, PCM format tag 1, 1 channel, sample rate 16000, byte rate 32000,
block align 2, 16 bits per sample, data chunk size `2N`, and the bytes at
offset `44 + 2i` decode (little-endian, signed 16-bit) to sample `i`
clamped to `[-1, 1]`, scaled by 32767 and rounded to nearest. -/
theorem c6_writeWavFile (audioData : List ℚ)
    (hN : 36 + 2 * audioData.length < 4294967296) :
    (writeWavFile audioData 16000).length = 44 + 2 * audioData.length ∧
    readU32 (writeWavFile audioData 16000) 4 = 44 + 2 * audioData.length - 8 ∧
    readU32 (writeWavFile audioData 16000) 16 = 16 ∧
    readU16 (writeWavFile audioData 16000) 20 = 1 ∧
    readU16 (writeWavFile audioData 16000) 22 = 1 ∧
    readU32 (writeWavFile audioData 16000) 24 = 16000 ∧
    readU32 (writeWavFile audioData 16000) 28 = 16000 * 2 ∧
    readU16 (writeWavFile audioData 16000) 32 = 2 ∧
    readU16 (writeWavFile audioData 16000) 34 = 16 ∧
    readU32 (writeWavFile audioData 16000) 40 = 2 * audioData.length ∧
    (∀ i : ℕ, i < audioData.length →
      readI16 (writeWavFile audioData 16000) (44 + 2 * i) =
        sampleToInt16 (audioData.getD i 0)) := by
  refine ⟨?_, ?_, ?_, ?_, ?_, ?_, ?_, ?_, ?_, ?_, ?_⟩
  · rw [writeWavFile, List.length_append, wavHeader_length, length_flatMap_i16]
  · rw [writeWav_readU32 _ 4 (by omega), wavHeader_field4]
    omega
  · rw [writeWav_readU32 _ 16 (by omega), wavHeader_field16]
  · rw [writeWav_readU16 _ 20 (by omega), wavHeader_field20]
  · rw [writeWav_readU16 _ 22 (by omega), wavHeader_field22]
  · rw [writeWav_readU32 _ 24 (by omega), wavHeader_field24]
  · rw [writeWav_readU32 _ 28 (by omega), wavHeader_field28]
  · rw [writeWav_readU16 _ 32 (by omega), wavHeader_field32]
  · rw [writeWav_readU16 _ 34 (by omega), wavHeader_field34]
  · rw [writeWav_readU32 _ 40 (by omega), wavHeader_field40]
    omega
  · exact writeWav_sample audioData

/-! ## `loadModel` single-flight guard (`main.js` lines 663-733) -/

/-- Model-loading state of the plugin: `transcriber` is set exactly when a
model is loaded; `isModelLoading` is the in-flight guard flag. -/
structure ModelState where
  transcriber : Bool
  isModelLoading : Bool
deriving DecidableEq

/-- What the synchronous guard prefix of a `loadModel` call does. -/
inductive LoadEnterResult where
  | returnsTrue
  | returnsFalse
  | beginsLoad
deriving DecidableEq

/-- The guard prefix of `loadModel` (lines 664-673): with a loaded
transcriber the call returns `true` immediately; while `isModelLoading` is
set it shows "Model is already loading" and returns `false` immediately;
otherwise it sets `isModelLoading` and starts the download/load. -/
def loadModelEnter (st : ModelState) : LoadEnterResult × ModelState :=
  if st.transcriber then (LoadEnterResult.returnsTrue, st)
  else if st.isModelLoading then (LoadEnterResult.returnsFalse, st)
  else (LoadEnterResult.beginsLoad, { st with isModelLoading := true })

/-- Completion of the in-flight attempt (lines 683-732): on success the
transcriber is set, the guard cleared, and the call returns `true`; on
failure (`catch`, lines 722-731) the guard is cleared and the call returns
`false`. -/
def loadModelComplete (st : ModelState) (success : Bool) : Bool × ModelState :=
  if success then (true, { transcriber := true, isModelLoading := false })
  else (false, { st with isModelLoading := false })

/-- Events of the model-loading trace: a `loadModel` call arriving, or the
in-flight attempt completing with the given outcome. -/
inductive LoadEvent where
  | callArrives
  | completes (success : Bool)

/-- One step of the trace semantics; the counter tracks the number of
in-flight download/load attempts. -/
def loadStep : ModelState × ℕ → LoadEvent → ModelState × ℕ
  | (st, n), LoadEvent.callArrives =>
    let r := loadModelEnter st
    (r.2, if r.1 = LoadEnterResult.beginsLoad then n + 1 else n)
  | (st, n), LoadEvent.completes success =>
    if n = 0 then (st, n) else ((loadModelComplete st success).2, n - 1)

/-- Run a loading trace from the fresh-plugin state. -/
def runLoadEvents (evts : List LoadEvent) : ModelState × ℕ :=
  evts.foldl loadStep (⟨false, false⟩, 0)

theorem foldl_loadStep_inv :
    ∀ (evts : List LoadEvent) (p : ModelState × ℕ),
      p.2 ≤ 1 → (p.1.isModelLoading = true ↔ p.2 = 1) →
      (evts.foldl loadStep p).2 ≤ 1 ∧
        ((evts.foldl loadStep p).1.isModelLoading = true ↔ (evts.foldl loadStep p).2 = 1) := by
  intro evts
  induction evts with
  | nil => intro p h1 h2; exact ⟨h1, h2⟩
  | cons e rest ih =>
    intro p h1 h2
    rw [List.foldl_cons]
    obtain ⟨st, n⟩ := p
    simp only at h1 h2
    have hstep : (loadStep (st, n) e).2 ≤ 1 ∧
        ((loadStep (st, n) e).1.isModelLoading = true ↔ (loadStep (st, n) e).2 = 1) := by
      cases e with
      | callArrives =>
        by_cases ht : st.transcriber = true
        · have heq : loadStep (st, n) LoadEvent.callArrives = (st, n) := by
            simp [loadStep, loadModelEnter, ht]
          rw [heq]
          exact ⟨h1, h2⟩
        · by_cases hl : st.isModelLoading = true
          · have heq : loadStep (st, n) LoadEvent.callArrives = (st, n) := by
              simp [loadStep, loadModelEnter, ht, hl]
            rw [heq]
            exact ⟨h1, h2⟩
          · have hn0 : n = 0 := by
              have hne : ¬ n = 1 := fun hcon => hl (h2.mpr hcon)
              omega
            have heq : loadStep (st, n) LoadEvent.callArrives =
                ({ st with isModelLoading := true }, n + 1) := by
              simp [loadStep, loadModelEnter, ht, hl]
            rw [heq, hn0]
            exact ⟨by omega, by simp⟩
      | completes success =>
        by_cases hn : n = 0
        · have heq : loadStep (st, n) (LoadEvent.completes success) = (st, n) := by
            simp [loadStep, hn]
          rw [heq]
          exact ⟨h1, h2⟩
        · have hn1 : n = 1 := by omega
          cases success with
          | true =>
            have heq : loadStep (st, n) (LoadEvent.completes true) =
                (⟨true, false⟩, n - 1) := by
              simp [loadStep, hn, loadModelComplete]
            rw [heq, hn1]
            exact ⟨by omega, by simp⟩
          | false =>
            have heq : loadStep (st, n) (LoadEvent.completes false) =
                ({ st with isModelLoading := false }, n - 1) := by
              simp [loadStep, hn, loadModelComplete]
            rw [heq, hn1]
            exact ⟨by omega, by simp⟩
    exact ih _ hstep.1 hstep.2

theorem runLoadEvents_inv (evts : List LoadEvent) :
    (runLoadEvents evts).2 ≤ 1 ∧
      ((runLoadEvents evts).1.isModelLoading = true ↔ (runLoadEvents evts).2 = 1) :=
  foldl_loadStep_inv evts (⟨false, false⟩, 0) (by omega) (by simp)

/-- C3 counterexample. Concrete schedule: from the fresh state, caller A's
`loadModel` begins the (only) load; caller B's `loadModel` arrives while it
is in flight and returns `false` immediately — before the attempt
completes — whereas the first attempt then completes successfully and
returns `true`.  B neither waits for, reuses, nor observes A's outcome. -/
theorem c3_second_caller_not_observing :
    (loadModelEnter ⟨false, false⟩).1 = LoadEnterResult.beginsLoad ∧
    (loadModelEnter (loadModelEnter ⟨false, false⟩).2).1 = LoadEnterResult.returnsFalse ∧
    (loadModelComplete (loadModelEnter (loadModelEnter ⟨false, false⟩).2).2 true).1 = true ∧
    (loadModelEnter (loadModelEnter ⟨false, false⟩).2).1 ≠ LoadEnterResult.returnsTrue := by
  refine ⟨rfl, rfl, rfl, by decide⟩

/-- C3 (amended). Initialization is single-flight: along every event
trace at most one download/load attempt is ever in flight, and a
`loadModel` call arriving while one is in flight never begins a second
one — but that second caller does not wait for or observe the in-flight
attempt's outcome: unless a model is already loaded it returns `false`
immediately, leaving the caller to retry. -/
theorem c3_single_flight_guard :
    (∀ evts : List LoadEvent, (runLoadEvents evts).2 ≤ 1) ∧
    (∀ st : ModelState, st.isModelLoading = true →
      (loadModelEnter st).1 ≠ LoadEnterResult.beginsLoad) ∧
    (∀ st : ModelState, st.isModelLoading = true → st.transcriber = false →
      loadModelEnter st = (LoadEnterResult.returnsFalse, st)) := by
  refine ⟨fun evts => (runLoadEvents_inv evts).1, ?_, ?_⟩
  · intro st hl
    rw [loadModelEnter]
    by_cases ht : st.transcriber
    · simp [ht]
    · simp [ht, hl]
  · intro st hl ht
    rw [loadModelEnter]
    simp [ht, hl]

/-! ## Provisioning (`desktop-transcriber.js` lines 282-321) -/

/-- The observable side effects of `DesktopTranscriber.initialize`. -/
inductive ProvEffect where
  | mkdirBin
  | mkdirModels
  | releaseQuery
  | downloadBinary
  | extractArchive
  | chmodExec
  | downloadModel
deriving DecidableEq

/-- The effects that touch the network (`getLatestReleaseUrl` and the two
`downloadFile` calls). -/
def isNetworkEffect : ProvEffect → Bool
  | ProvEffect.releaseQuery => true
  | ProvEffect.downloadBinary => true
  | ProvEffect.downloadModel => true
  | _ => false

/-- On-disk provisioning state: whether `findExecutable(binDir, execNames)`
finds the engine executable under the bin directory, and whether the
mapped model file exists in the models directory. -/
structure ProvisionState where
  binExec : Bool
  modelExists : Bool
deriving DecidableEq

/-- Effect trace and final state of `DesktopTranscriber.initialize`
(success path): always ensure both directories; when no executable is
found, query the release index, download and extract the archive (after
which `findExecutable` succeeds); `chmod` the executable; when the mapped
model file is absent, download it; finally mark the transcriber
initialized. -/
def initializeTranscriber (fs : ProvisionState) : List ProvEffect × ProvisionState × Bool :=
  let binPart : List ProvEffect × ProvisionState :=
    if fs.binExec then ([], fs)
    else ([ProvEffect.releaseQuery, ProvEffect.downloadBinary, ProvEffect.extractArchive],
      { fs with binExec := true })
  let modelPart : List ProvEffect × ProvisionState :=
    if binPart.2.modelExists then ([], binPart.2)
    else ([ProvEffect.downloadModel], { binPart.2 with modelExists := true })
  ([ProvEffect.mkdirBin, ProvEffect.mkdirModels] ++ binPart.1 ++ [ProvEffect.chmodExec] ++
      modelPart.1,
    modelPart.2, true)

/-- C7. Provisioning is idempotent: when the engine executable is already
present under the bin directory and the mapped model file already exists,
`initialize` performs no network effect and completes (initialized) with
the existing assets; consequently a second `initialize` after a successful
first issues zero network calls. -/
theorem c7_idempotent_provisioning (fs : ProvisionState)
    (h1 : fs.binExec = true) (h2 : fs.modelExists = true) :
    (initializeTranscriber fs).1.filter isNetworkEffect = [] ∧
    (initializeTranscriber fs).2.2 = true ∧
    (∀ fs0 : ProvisionState,
      (initializeTranscriber (initializeTranscriber fs0).2.1).1.filter isNetworkEffect = []) := by
  refine ⟨?_, rfl, ?_⟩
  · simp [initializeTranscriber, h1, h2, isNetworkEffect]
  · intro fs0
    obtain ⟨b, m⟩ := fs0
    cases b <;> cases m <;> decide

/-! ## Subprocess invocation exit paths (`desktop-transcriber.js` lines 360-419) -/

/-- A terminal event of the spawned whisper.cpp process: the `close` event
with an exit code, or the `error` event (spawn failure). -/
inductive ProcEvent where
  | close (code : ℤ)
  | spawnErr

/-- What `transcribe`'s handlers produce after the temporary WAV file has
been written: whether `fs.unlinkSync(tempWavPath)` was attempted (its own
failure only being logged), and the settled promise value. -/
structure SubprocessOutcome where
  unlinkAttempted : Bool
  result : Except String String

/-- The `close` handler (lines 394-409) first attempts to delete the
temporary WAV file, then resolves with the trimmed stdout on exit code 0
and rejects with the captured stderr otherwise; the `error` handler
(lines 411-417) also first attempts the deletion, then rejects. -/
def transcribeProcessExit (stdout stderr : String) : ProcEvent → SubprocessOutcome
  | ProcEvent.close code =>
    { unlinkAttempted := true,
      result := if code = 0 then Except.ok stdout.trim else Except.error stderr }
  | ProcEvent.spawnErr =>
    { unlinkAttempted := true, result := Except.error "spawn error" }

/-- C8. On every exit path of `transcribe` after the temporary WAV file
has been written — exit code zero, non-zero exit code, and spawn error —
deletion of the temporary file is attempted unconditionally; exit code 0
resolves with the trimmed stdout, any other code rejects with the captured
stderr, and a spawn error rejects. -/
theorem c8_temp_wav_always_deleted (stdout stderr : String) :
    (∀ e : ProcEvent, (transcribeProcessExit stdout stderr e).unlinkAttempted = true) ∧
    (∀ code : ℤ, (transcribeProcessExit stdout stderr (ProcEvent.close code)).result =
      if code = 0 then Except.ok stdout.trim else Except.error stderr) ∧
    (transcribeProcessExit stdout stderr ProcEvent.spawnErr).result =
      Except.error "spawn error" := by
  refine ⟨?_, fun code => rfl, rfl⟩
  intro e
  cases e <;> rfl

/-! ## Witnesses -/

theorem c1_insertion_order_witness :
    (([3, 1, 2] : List ℕ).Perm (List.range' 1 3)) ∧
    (processResults (([3, 1, 2] : List ℕ).map (fun s => (s, (fun _ : ℕ => "hi") s)))).inserted =
      ((List.range' 1 3).filter (fun s => keepText ((fun _ : ℕ => "hi") s))).map
        (fun s => (s, (fun _ : ℕ => "hi") s ++ " ")) :=
  ⟨by decide, c1_insertion_order 3 (fun _ => "hi") [3, 1, 2] (by decide)⟩

theorem c3_single_flight_guard_witness :
    (loadModelEnter ⟨false, true⟩).1 ≠ LoadEnterResult.beginsLoad ∧
    loadModelEnter ⟨false, true⟩ = (LoadEnterResult.returnsFalse, ⟨false, true⟩) :=
  ⟨c3_single_flight_guard.2.1 ⟨false, true⟩ rfl,
   c3_single_flight_guard.2.2 ⟨false, true⟩ rfl rfl⟩

theorem c4_resample_nearest_witness :
    ((0 : ℚ) < 48000) ∧ ((0 : ℚ) < 16000) ∧
    (resampleAudio (List.replicate 100 0) 48000 16000).length =
      (jsRound (((List.replicate 100 (0 : ℚ)).length : ℚ) * 16000 / 48000)).toNat :=
  ⟨by norm_num, by norm_num,
   (c4_resample_nearest (List.replicate 100 0) 48000 16000 (by norm_num) (by norm_num)).1⟩

theorem c6_writeWavFile_witness :
    (36 + 2 * ([1/2, -1/2, 0] : List ℚ).length < 4294967296) ∧
    (writeWavFile [1/2, -1/2, 0] 16000).length = 44 + 2 * ([1/2, -1/2, 0] : List ℚ).length :=
  ⟨by norm_num, (c6_writeWavFile [1/2, -1/2, 0] (by norm_num)).1⟩

theorem c7_idempotent_provisioning_witness :
    ((⟨true, true⟩ : ProvisionState).binExec = true) ∧
    ((⟨true, true⟩ : ProvisionState).modelExists = true) ∧
    (initializeTranscriber ⟨true, true⟩).1.filter isNetworkEffect = [] :=
  ⟨rfl, rfl, (c7_idempotent_provisioning ⟨true, true⟩ rfl rfl).1⟩

theorem c9_sequencer_invariants_witness :
    ((([(1, "a"), (2, "b")] : List (ℕ × String)).map Prod.fst).Nodup) ∧
    (∀ e ∈ ([(1, "a"), (2, "b")] : List (ℕ × String)), 1 ≤ e.1) ∧
    (processResults [(1, "a")]).nextInsertChunk ≤
      (processResults ([(1, "a")] ++ [(2, "b")])).nextInsertChunk :=
  ⟨by decide, by decide,
   (c9_sequencer_invariants [(1, "a"), (2, "b")] (by decide) (by decide)).1
     [(1, "a")] [(2, "b")]⟩

theorem c10_resample_safety_witness :
    ((0 : ℚ) < 48000) ∧ ((0 : ℚ) < 16000) ∧
    (resampleAudio (List.replicate 100 0) 48000 16000).length =
      (jsRound (((List.replicate 100 (0 : ℚ)).length : ℚ) * 16000 / 48000)).toNat :=
  ⟨by norm_num, by norm_num,
   (c10_resample_safety (List.replicate 100 0) 48000 16000 (by norm_num) (by norm_num)).2.1⟩
